import Mathlib

/-!
Verification of the configrep versioned backup store.

The TypeScript sources under `src/helpers` (diff.ts, backup.ts, crypto.ts)
are embedded shallowly: JSON-compatible values become the inductive `Json`,
JavaScript objects become ordered association lists, exceptions become
`Except`/`Option`, and the per-run file I/O collaborators (discovery,
parsing) become explicit inputs, as the spec's external-interface section
describes them.
-/

namespace Configrep

/-- A JSON-compatible value.  JavaScript objects preserve property insertion
order, so object fields are an ordered association list.  Numbers are
modelled as integers; no property under study depends on float semantics. -/
inductive Json where
  | null : Json
  | bool (b : Bool) : Json
  | num (n : Int) : Json
  | str (s : String) : Json
  | arr (elems : List Json) : Json
  | obj (fields : List (String × Json)) : Json
deriving Inhabited

mutual

def Json.beq : Json → Json → Bool
  | .null, .null => true
  | .bool a, .bool b => a == b
  | .num a, .num b => a == b
  | .str a, .str b => a == b
  | .arr a, .arr b => Json.beqList a b
  | .obj a, .obj b => Json.beqFields a b
  | _, _ => false

def Json.beqList : List Json → List Json → Bool
  | [], [] => true
  | x :: xs, y :: ys => Json.beq x y && Json.beqList xs ys
  | _, _ => false

def Json.beqFields : List (String × Json) → List (String × Json) → Bool
  | [], [] => true
  | (k1, v1) :: xs, (k2, v2) :: ys => k1 == k2 && Json.beq v1 v2 && Json.beqFields xs ys
  | _, _ => false

end

mutual

theorem Json.beq_iff_eq : ∀ a b : Json, Json.beq a b = true ↔ a = b
  | .null, .null => by simp [Json.beq]
  | .bool _, .bool _ => by simp [Json.beq]
  | .num _, .num _ => by simp [Json.beq]
  | .str _, .str _ => by simp [Json.beq]
  | .arr x, .arr y => by simp [Json.beq, Json.beqList_iff_eq x y]
  | .obj x, .obj y => by simp [Json.beq, Json.beqFields_iff_eq x y]
  | .null, .bool _ | .null, .num _ | .null, .str _ | .null, .arr _ | .null, .obj _
  | .bool _, .null | .bool _, .num _ | .bool _, .str _ | .bool _, .arr _ | .bool _, .obj _
  | .num _, .null | .num _, .bool _ | .num _, .str _ | .num _, .arr _ | .num _, .obj _
  | .str _, .null | .str _, .bool _ | .str _, .num _ | .str _, .arr _ | .str _, .obj _
  | .arr _, .null | .arr _, .bool _ | .arr _, .num _ | .arr _, .str _ | .arr _, .obj _
  | .obj _, .null | .obj _, .bool _ | .obj _, .num _ | .obj _, .str _ | .obj _, .arr _ => by
    simp [Json.beq]

theorem Json.beqList_iff_eq : ∀ a b : List Json, Json.beqList a b = true ↔ a = b
  | [], [] => by simp [Json.beqList]
  | [], _ :: _ => by simp [Json.beqList]
  | _ :: _, [] => by simp [Json.beqList]
  | x :: xs, y :: ys => by
    simp [Json.beqList, Json.beq_iff_eq x y, Json.beqList_iff_eq xs ys]

theorem Json.beqFields_iff_eq :
    ∀ a b : List (String × Json), Json.beqFields a b = true ↔ a = b
  | [], [] => by simp [Json.beqFields]
  | [], _ :: _ => by simp [Json.beqFields]
  | _ :: _, [] => by simp [Json.beqFields]
  | (k1, v1) :: xs, (k2, v2) :: ys => by
    simp [Json.beqFields, Json.beq_iff_eq v1 v2, Json.beqFields_iff_eq xs ys,
      and_assoc]

end

instance : BEq Json := ⟨Json.beq⟩

instance : LawfulBEq Json where
  eq_of_beq h := (Json.beq_iff_eq _ _).mp h
  rfl := (Json.beq_iff_eq _ _).mpr rfl

instance Json.decEq : DecidableEq Json := fun a b =>
  decidable_of_iff (Json.beq a b = true) (Json.beq_iff_eq a b)

/-! ### JavaScript object primitives

The applier in diff.ts reads and writes properties of plain objects and
arrays.  Property reads, writes and deletes on an ordered association list
mirror the JavaScript semantics: a write replaces the value of the first
matching key in place, otherwise appends; a delete removes the first
matching key; a read returns the first match.

One inherited name needs care: assigning `obj["__proto__"] = v` on an
object without an own `"__proto__"` property does not create one — it
invokes the accessor inherited from `Object.prototype`, which repoints the
prototype (object value) or silently does nothing (primitive value), and
either way leaves the object's own, JSON-visible properties unchanged.  An
own `"__proto__"` data property (obtainable through `JSON.parse`) shadows
the accessor, so replacing an existing entry behaves normally.  The model
reflects the JSON-visible outcome: a fresh `"__proto__"` write is a no-op.
What a repointed prototype would feed to later `in` tests and reads is not
modelled; no statement in this file exercises it. -/

/-- `fields[k]`: first value stored under `k`, if any. -/
def lookupField (fields : List (String × Json)) (k : String) : Option Json :=
  (fields.find? (fun kv => kv.1 = k)).map (fun kv => kv.2)

/-- `fields[k] = v`: replace the first matching property in place; for an
absent key create a fresh own property at the end — except `"__proto__"`,
where the assignment hits the inherited accessor and creates nothing. -/
def setField : List (String × Json) → String → Json → List (String × Json)
  | [], k, v => if k = "__proto__" then [] else [(k, v)]
  | (k0, v0) :: rest, k, v =>
    if k0 = k then (k0, v) :: rest else (k0, v0) :: setField rest k v

/-- `delete fields[k]`: drop the first property named `k`. -/
def eraseField : List (String × Json) → String → List (String × Json)
  | [], _ => []
  | (k0, v0) :: rest, k =>
    if k0 = k then rest else (k0, v0) :: eraseField rest k

/-- An array index string is an own property of a JavaScript array exactly
when it is the canonical decimal form of a natural number below the length
(so `"01"` or `"-1"` never match). -/
def toIndex (s : String) (len : Nat) : Option Nat :=
  match s.toNat? with
  | some n => if toString n = s ∧ n < len then some n else none
  | none => none

/-- `String.prototype.split('/')`, reimplemented over the character list so
its behaviour is available to proofs.  `"".split('/')` is `[""]`. -/
def splitSlashCh : List Char → List String
  | [] => [""]
  | c :: rest =>
    let r := splitSlashCh rest
    if c = '/' then "" :: r
    else
      match r with
      | [] => [String.mk [c]]
      | h :: t => String.mk (c :: h.data) :: t

def splitSlash (s : String) : List String :=
  splitSlashCh s.data

/-- fast-json-patch `escapePathComponent`: `~` becomes `~0`, `/` becomes
`~1`.  The library applies the two global replacements in that order, which
coincides with this single character-by-character pass because `~0` contains
no `/`. -/
def escapeComponent (k : String) : String :=
  String.mk (k.data.foldr
    (fun c acc =>
      if c = '~' then '~' :: '0' :: acc
      else if c = '/' then '~' :: '1' :: acc
      else c :: acc) [])

/-! ### The delta type (src/types/backup.ts, `VersionDelta`) -/

inductive PatchOp where
  | add : PatchOp
  | remove : PatchOp
  | replace : PatchOp
deriving DecidableEq, Inhabited

structure VersionDelta where
  op : PatchOp
  path : String
  value : Option Json := none
  oldValue : Option Json := none
deriving DecidableEq, Inhabited

/-! ### `applyPatches` (src/helpers/diff.ts lines 37-79)

The source walks the clone mutably and wraps each patch in `try`/`catch`.
In the `add`/`replace` walk, every mutation (creating a missing intermediate
object) switches the cursor onto a freshly created object, after which no
further step can throw; so a thrown `TypeError` always precedes the first
mutation and the whole patch is a no-op.  The walks below therefore return
`Option Json`, with `none` standing for the caught exception, and the caller
keeps the previous value.

Two array corners are outside the model and unreachable from patches that
`generateJsonPatch` produces against a value of the same shape: assigning
through an out-of-range numeric index (JavaScript would lengthen the array
with holes) is mapped to the caught-exception case, and `delete` on an
in-range index leaves a hole, which serializes as `null` and is modelled as
`null`. -/

/-- The `add`/`replace` walk of `applyPatches`: descend along the path,
creating empty objects for missing intermediate properties, skipping empty
segments, and assign the value at the final segment.  `none` models the
caught `TypeError` of a write through a primitive.  A missing intermediate
`"__proto__"` segment repoints the prototype and the walk continues inside
the fresh prototype object, invisible to the JSON value: the cursor object
is returned unchanged. -/
def addWalk : Json → List String → Json → Option Json
  | current, [], _ => some current
  | current, [last], v =>
    if last = "" then some current
    else
      match current with
      | .obj fs => some (.obj (setField fs last v))
      | .arr xs =>
        match toIndex last xs.length with
        | some i => some (.arr (xs.set i v))
        | none => none
      | _ => none
  | current, p :: q :: rest, v =>
    if p = "" then addWalk current (q :: rest) v
    else
      match current with
      | .obj fs =>
        match lookupField fs p with
        | some child =>
          (addWalk child (q :: rest) v).map (fun c => .obj (setField fs p c))
        | none =>
          if p = "__proto__" then some (.obj fs)
          else (addWalk (.obj []) (q :: rest) v).map (fun c => .obj (fs ++ [(p, c)]))
      | .arr xs =>
        match toIndex p xs.length with
        | some i =>
          (addWalk (xs.getD i .null) (q :: rest) v).map (fun c => .arr (xs.set i c))
        | none => none
      | _ => none

/-- The final `delete` of the `remove` branch: applies only when the cursor
is an object or array, the segment is non-empty, and the property exists. -/
def removeLast (current : Json) (last : String) : Json :=
  match current with
  | .obj fs =>
    if last ≠ "" ∧ (lookupField fs last).isSome then .obj (eraseField fs last)
    else current
  | .arr xs =>
    match toIndex last xs.length with
    | some i => .arr (xs.set i .null)
    | none => current
  | _ => current

/-- The `remove` walk of `applyPatches`: descend along the intermediate
segments, `break`ing out (and deleting at the current level) as soon as a
segment is empty or absent; `none` models the `TypeError` thrown by the
`in` test on a primitive cursor. -/
def removeDescend : Json → List String → String → Option Json
  | current, [], last => some (removeLast current last)
  | current, p :: rest, last =>
    if p = "" then some (removeLast current last)
    else
      match current with
      | .obj fs =>
        match lookupField fs p with
        | some child =>
          (removeDescend child rest last).map (fun c => .obj (setField fs p c))
        | none => some (removeLast current last)
      | .arr xs =>
        match toIndex p xs.length with
        | some i =>
          (removeDescend (xs.getD i .null) rest last).map (fun c => .arr (xs.set i c))
        | none => some (removeLast current last)
      | _ => none

/-- One iteration of the patch loop in `applyPatches`. -/
def applyOne (result : Json) (patch : VersionDelta) : Json :=
  let parts := (splitSlash patch.path).drop 1
  match patch.op with
  | .add | .replace =>
    (addWalk result parts (patch.value.getD .null)).getD result
  | .remove =>
    match parts.reverse with
    | [] => result
    | last :: revInit => (removeDescend result revInit.reverse last).getD result

/-- `JSON.parse(JSON.stringify(data))`: on values of `Json` (no `undefined`,
no functions, no cycles) the clone is the identity. -/
def deepClone (data : Json) : Json := data

/-- `applyPatches(data, patches)` from src/helpers/diff.ts. -/
def applyPatches (data : Json) (patches : List VersionDelta) : Json :=
  patches.foldl applyOne (deepClone data)

/-! ### `generateJsonPatch` (src/helpers/diff.ts lines 5-35)

`generateJsonPatch` delegates the diff to `compare` from the fast-json-patch
dependency and then decorates `replace` operations with a best-effort
`oldValue`.  `compare`'s `_generate` is embedded below.  Its enumeration
`_objectKeys` returns array indices for arrays, `Object.keys` for objects
and the empty list for primitives; the model enumerates object keys in field
order (JavaScript would place integer-like keys first, an ordering no result
here depends on).  The recursion through member values is driven by a fuel
counter that `generateJsonPatch` seeds with `sizeOf` of the old value, which
strictly exceeds the recursion depth, so the fuel-exhausted branch is
unreachable. -/

/-- `_objectKeys` paired with the member values: array elements under their
index strings, object fields in order, nothing for primitives. -/
def memberPairs : Json → List (String × Json)
  | .arr xs => (List.range xs.length).zip xs |>.map (fun p => (toString p.1, p.2))
  | .obj fs => fs
  | _ => []

/-- Property read `j[k]` as `_generate` performs it on a container. -/
def getKey (j : Json) (k : String) : Option Json :=
  match j with
  | .obj fs => lookupField fs k
  | .arr xs =>
    match toIndex k xs.length with
    | some i => xs.get? i
    | none => none
  | _ => none

def Json.isContainer : Json → Bool
  | .arr _ => true
  | .obj _ => true
  | _ => false

def Json.isArray : Json → Bool
  | .arr _ => true
  | _ => false

/-- The forward loop over the new keys: an `add` for every key absent from
the mirror. -/
def genAddKeys (mirror obj : Json) (path : String) :
    List (String × Json) → List VersionDelta
  | [] => []
  | (key, newVal) :: restKeys =>
    match getKey mirror key with
    | some _ => genAddKeys mirror obj path restKeys
    | none =>
      { op := .add, path := path ++ "/" ++ escapeComponent key, value := some newVal }
        :: genAddKeys mirror obj path restKeys

-- Structural size of a value, used to seed the diff recursion fuel.
mutual

def Json.size : Json → Nat
  | .null => 1
  | .bool _ => 1
  | .num _ => 1
  | .str _ => 1
  | .arr xs => 1 + Json.sizeList xs
  | .obj fs => 1 + Json.sizeFields fs

def Json.sizeList : List Json → Nat
  | [] => 0
  | x :: xs => 1 + Json.size x + Json.sizeList xs

def Json.sizeFields : List (String × Json) → Nat
  | [] => 0
  | kv :: fs => 1 + Json.size kv.2 + Json.sizeFields fs

end

/-- The reversed loop over the old keys of `_generate`; returns the pushed
operations in push order together with the `deleted` flag.  `recurse` is the
diff recursion applied to members that are containers of the same kind. -/
def genOldKeys (recurse : Json → Json → String → List VersionDelta)
    (mirror obj : Json) (path : String) :
    List (String × Json) → List VersionDelta × Bool
  | [] => ([], false)
  | (key, oldVal) :: restKeys =>
    let rest := genOldKeys recurse mirror obj path restKeys
    match getKey obj key with
    | some newVal =>
      if oldVal.isContainer ∧ newVal.isContainer ∧ oldVal.isArray = newVal.isArray then
        (recurse oldVal newVal (path ++ "/" ++ escapeComponent key) ++ rest.1,
         rest.2)
      else if oldVal ≠ newVal then
        ({ op := .replace, path := path ++ "/" ++ escapeComponent key,
           value := some newVal } :: rest.1, rest.2)
      else rest
    | none =>
      if mirror.isArray = obj.isArray then
        ({ op := .remove, path := path ++ "/" ++ escapeComponent key } :: rest.1, true)
      else
        ({ op := .replace, path := path, value := some obj } :: rest.1, true)

/-- `_generate(mirror, obj, patches, path)`.  The old-key loop runs from the
last key to the first, pushing `remove`/`replace` operations and recursing
into members that are containers of the same kind; the new-key loop then
appends `add` operations, short-circuited when nothing was deleted and the
key counts agree. -/
def generateOps : Nat → Json → Json → String → List VersionDelta
  | 0, _, _, _ => []
  | fuel + 1, mirror, obj, path =>
    let step := genOldKeys (generateOps fuel) mirror obj path (memberPairs mirror).reverse
    let adds := genAddKeys mirror obj path (memberPairs obj)
    step.1 ++
      (if !step.2 ∧ (memberPairs obj).length = (memberPairs mirror).length then []
       else adds)

/-- JavaScript truthiness of a JSON value. -/
def Json.isTruthy : Json → Bool
  | .null => false
  | .bool b => b
  | .num n => n ≠ 0
  | .str s => s ≠ ""
  | _ => true

/-- The best-effort `oldValue` walk of `generateJsonPatch`: follow the path
through `oldData`, moving the cursor only when it sits on a container that
has the segment; a missing property strands the cursor on `undefined`
(`none`) for the rest of the walk. -/
def oldValueWalk : Json → List String → Option Json
  | cur, [] => some cur
  | cur, p :: rest =>
    if p = "" then oldValueWalk cur rest
    else
      match cur with
      | .obj fs =>
        match lookupField fs p with
        | some next => oldValueWalk next rest
        | none => none
      | .arr xs =>
        match toIndex p xs.length with
        | some i => oldValueWalk (xs.getD i .null) rest
        | none => none
      | other => oldValueWalk other rest

/-- `generateJsonPatch(oldData, newData)` from src/helpers/diff.ts. -/
def generateJsonPatch (oldData newData : Json) : List VersionDelta :=
  (generateOps (Json.size oldData) oldData newData "").map (fun patch =>
    if patch.op = .replace ∧ oldData.isTruthy then
      { patch with oldValue := oldValueWalk oldData ((splitSlash patch.path).drop 1) }
    else patch)

/-! ### The backup data model (src/types/backup.ts) -/

structure BackupVersion where
  versionNumber : Int
  timestamp : String
  hash : String
  content : Option Json := none
  changes : Option (List VersionDelta) := none
deriving DecidableEq, Inhabited

structure BackupFileRecord where
  id : String
  originalPath : String
  fileName : String
  fileType : String
  versions : List BackupVersion
deriving DecidableEq, Inhabited

structure BackupManifest where
  version : String
  created : String
  lastModified : String
  encrypted : Option Bool := none
  files : List BackupFileRecord
deriving DecidableEq, Inhabited

-- `JSON.stringify` of a value, used only as the preimage of the content
-- digest; the string-escaping of control characters is elided.
mutual

def Json.serialize : Json → String
  | .null => "null"
  | .bool true => "true"
  | .bool false => "false"
  | .num n => toString n
  | .str s => "\"" ++ s ++ "\""
  | .arr xs => "[" ++ Json.serializeList xs ++ "]"
  | .obj fs => "\x7b" ++ Json.serializeFields fs ++ "\x7d"

def Json.serializeList : List Json → String
  | [] => ""
  | [x] => Json.serialize x
  | x :: y :: rest => Json.serialize x ++ "," ++ Json.serializeList (y :: rest)

def Json.serializeFields : List (String × Json) → String
  | [] => ""
  | [(k, v)] => "\"" ++ k ++ "\":" ++ Json.serialize v
  | (k, v) :: p :: rest =>
    "\"" ++ k ++ "\":" ++ Json.serialize v ++ "," ++ Json.serializeFields (p :: rest)

end

/-- `hashContent(content)` (backup.ts lines 15-18): the SHA-256 hex digest
of the value itself when it is a string, of `JSON.stringify(content)`
otherwise.  The digest is modelled by the string it is computed from and
treated as collision-free: every property proved here depends only on
equality or inequality of digests. -/
def hashContent (content : Json) : String :=
  match content with
  | .str s => s
  | other => Json.serialize other

deriving instance DecidableEq for Except

/-- The errors `reconstructAtVersion` throws, one constructor per `throw`
site; the spec's taxonomy calls the first two `VersionError` and the third a
corrupt-record failure. -/
inductive ReconError where
  | invalidVersion (target : Int) (available : Nat)
  | versionNotFound (target : Int)
  | noInitialContent
deriving DecidableEq

/-- `reconstructAtVersion(fileRecord, targetVersion)` (backup.ts lines
72-104).  The replay loop visits `versions[i]` for `i` from 1 to
`targetVersion - 1`; those indices are in range whenever the loop is
reached, so the slice below is exactly the versions the loop reads. -/
def reconstructAtVersion (fileRecord : BackupFileRecord) (targetVersion : Int) :
    Except ReconError Json :=
  if targetVersion < 1 ∨ targetVersion > fileRecord.versions.length then
    .error (.invalidVersion targetVersion fileRecord.versions.length)
  else
    match fileRecord.versions.find? (fun v => v.versionNumber = targetVersion) with
    | none => .error (.versionNotFound targetVersion)
    | some version =>
      match version.content with
      | some c => .ok c
      | none =>
        match fileRecord.versions.head? with
        | none => .error .noInitialContent
        | some firstVersion =>
          match firstVersion.content with
          | none => .error .noInitialContent
          | some start =>
            .ok (((fileRecord.versions.drop 1).take (targetVersion.toNat - 1)).foldl
              (fun acc v =>
                match v.changes with
                | some cs => applyPatches acc cs
                | none => acc) start)

/-- The replay the spec describes for the Reconstruction Engine: start from
the version-1 snapshot and apply each later version's `changes` through the
Delta Codec in increasing order. -/
def replayUpTo (vs : List BackupVersion) (start : Json) : Json :=
  vs.foldl (fun acc v => applyPatches acc (v.changes.getD [])) start

/-- Versions are numbered `base + 1, base + 2, ...` in list order. -/
def versionsNumberedFrom : Nat → List BackupVersion → Bool
  | _, [] => true
  | base, v :: vs =>
    v.versionNumber = (base : Int) + 1 && versionsNumberedFrom (base + 1) vs

/-- Version 1 carries the full snapshot and no deltas; every later version
carries deltas and no snapshot. -/
def snapshotThenDeltas : List BackupVersion → Bool
  | [] => true
  | v :: vs =>
    v.content.isSome && v.changes = none &&
      vs.all (fun w => w.content = none && w.changes.isSome)

/-- The manifest invariant on one file record (spec section 3). -/
def VersionsWellFormed (r : BackupFileRecord) : Bool :=
  versionsNumberedFrom 0 r.versions && snapshotThenDeltas r.versions

/-- The C8 invariant alone: versions numbered 1, 2, ... with no gaps. -/
def recordNumbered (r : BackupFileRecord) : Prop :=
  versionsNumberedFrom 0 r.versions = true

instance (r : BackupFileRecord) : Decidable (recordNumbered r) := by
  unfold recordNumbered; infer_instance

/-! ### The backup orchestrator (src/helpers/backup.ts, `createBackup`) -/

structure ConfigEntry where
  key : String
  value : String
  rawValue : Option Json := none
deriving DecidableEq, Inhabited

/-- One discovered file joined with what the external parser returned for it
(the discovery/parser collaborator of spec section 6). -/
structure DiscoveredFile where
  relativePath : String
  name : String
  fileType : String
  parseError : Option String := none
  entries : List ConfigEntry := []
deriving DecidableEq, Inhabited

/-- The run options `createBackup` branches on.  `password` is declared in
`BackupOptions` of src/types/backup.ts; the directory/ignore/depth/output
options only shape the discovery input, which is already explicit here. -/
structure BackupOptions where
  dryRun : Bool := false
  password : Option String := none
deriving DecidableEq, Inhabited

structure BackupResult where
  success : Bool
  filesProcessed : Nat
  changesDetected : Nat
  encrypted : Bool
  error : Option String := none
deriving DecidableEq, Inhabited

/-- Lines 179-182: fold the parsed entries into the file's structured
content, `entry.rawValue ?? entry.value` per key. -/
def buildContent (entries : List ConfigEntry) : Json :=
  .obj (entries.foldl
    (fun acc e => setField acc e.key (e.rawValue.getD (.str e.value))) [])

/-- The in-place mutation of the record `find` aliased: replace the first
record carrying the id. -/
def replaceFirstRecord :
    List BackupFileRecord → String → BackupFileRecord → List BackupFileRecord
  | [], _, _ => []
  | r :: rs, fid, nr =>
    if r.id = fid then nr :: rs else r :: replaceFirstRecord rs fid nr

/-- The per-file body of the backup loop (backup.ts lines 158-209).  State
is the manifest with the running `changesDetected` counter.  The `catch`
wrapping the body is reachable only from `reconstructAtVersion`, which runs
after the counter is incremented and before the new version is appended;
the model resumes from exactly that point. -/
def processFile (now : String) (st : BackupManifest × Nat) (f : DiscoveredFile) :
    BackupManifest × Nat :=
  if f.parseError.isSome ∨ f.entries = [] then st
  else
    let m := st.1
    let fileId := hashContent (.str f.relativePath)
    let found := m.files.find? (fun r => r.id = fileId)
    let rec0 := found.getD
      { id := fileId, originalPath := f.relativePath, fileName := f.name,
        fileType := f.fileType, versions := [] }
    let files1 := if found.isSome then m.files else m.files ++ [rec0]
    let m1 := { m with files := files1 }
    let currentContent := buildContent f.entries
    let currentHash := hashContent currentContent
    match rec0.versions.getLast? with
    | none =>
      let newVersion : BackupVersion :=
        { versionNumber := (rec0.versions.length : Int) + 1, timestamp := now,
          hash := currentHash, content := some currentContent }
      ({ m1 with files := (replaceFirstRecord files1 fileId
          { rec0 with versions := rec0.versions ++ [newVersion] }) }, st.2 + 1)
    | some lastVersion =>
      if lastVersion.hash = currentHash then (m1, st.2)
      else
        match reconstructAtVersion rec0 rec0.versions.length with
        | .error _ => (m1, st.2 + 1)
        | .ok lastContent =>
          let newVersion : BackupVersion :=
            { versionNumber := (rec0.versions.length : Int) + 1, timestamp := now,
              hash := currentHash,
              changes := some (generateJsonPatch lastContent currentContent) }
          ({ m1 with files := (replaceFirstRecord files1 fileId
              { rec0 with versions := rec0.versions ++ [newVersion] }) }, st.2 + 1)

/-- The fresh manifest `createBackup` builds when no backup exists, with the
previous one reused and `lastModified` refreshed otherwise (lines 149-156). -/
def initialManifest (existingBackup : Option BackupManifest) (now : String) :
    BackupManifest :=
  { existingBackup.getD
      { version := "1.0.0", created := now, lastModified := now, files := [] } with
    lastModified := now }

/-- Line 161: a file is skipped when its parse failed or yielded nothing. -/
def fileSkipped (f : DiscoveredFile) : Bool :=
  f.parseError.isSome || f.entries.isEmpty

/-- What one run reports and persists. -/
structure BackupRun where
  result : BackupResult
  manifestAfter : Option BackupManifest
  saved : Option BackupManifest

/-- One backup run (backup.ts `createBackup`, lines 106-242) with the
external collaborators explicit: `configFiles` is the discovery result
joined with each file's parse outcome, `existingBackup` is what
`loadBackup` returned, `now` the run timestamp.  `saved` is the manifest
handed to `saveBackup`, `none` when nothing is persisted.  The source never
reads `options.password`: both result branches report `encrypted := false`
and the saved manifest is the plain one. -/
def createBackupCore (configFiles : List DiscoveredFile)
    (existingBackup : Option BackupManifest) (now : String)
    (options : BackupOptions) : BackupRun :=
  if configFiles = [] then
    { result := { success := false, filesProcessed := 0, changesDetected := 0,
                  encrypted := false, error := some "No config files found" },
      manifestAfter := none, saved := none }
  else
    let final := configFiles.foldl (processFile now) (initialManifest existingBackup now, 0)
    { result := { success := true, filesProcessed := configFiles.length,
                  changesDetected := final.2, encrypted := false },
      manifestAfter := some final.1,
      saved := if options.dryRun then none else some final.1 }

/-! ### The encryption envelope (src/helpers/crypto.ts)

The cryptographic primitives come from Node's crypto module, not from this
repository, and are modelled symbolically: a derived key is identified by
the inputs that determine it, a genuine ciphertext by the key, IV, AAD and
plaintext that produced it, and authenticated decryption succeeds exactly
when every parameter matches.  This idealizes PBKDF2 and AES-256-GCM as
collision-free, which is the standard of every property claimed. -/

/-- PBKDF2-HMAC-SHA256 output, symbolically. -/
structure DerivedKey where
  password : String
  salt : String
  iterations : Nat
deriving DecidableEq

/-- The inputs determining an AES-256-GCM ciphertext of a serialized
manifest.  The serialization layer (`JSON.stringify` and `JSON.parse`) is
invertible on manifests and elided: the blob carries the manifest value. -/
structure AeadBlob where
  key : DerivedKey
  iv : String
  aad : String
  plaintext : BackupManifest
deriving DecidableEq

/-- An opaque base64 ciphertext: a genuine encryption, or bytes that are no
valid encryption — which is, up to negligible probability, what flipping a
byte of a genuine ciphertext yields. -/
inductive CipherText where
  | blob (b : AeadBlob)
  | junk (bytes : String)
deriving DecidableEq

/-- A 16-byte GCM authentication tag: genuine for a blob, or corrupted. -/
inductive AuthTag where
  | genuine (b : AeadBlob)
  | junk (bytes : String)
deriving DecidableEq

/-- `EncryptedBackup` from src/types/backup.ts, binary fields base64. -/
structure EncryptedBackup where
  encrypted : Bool
  algorithm : String
  salt : String
  iv : String
  authTag : AuthTag
  iterations : Nat
  data : CipherText
deriving DecidableEq

def gcmAlgorithm : String := "aes-256-gcm"

def kdfIterations : Nat := 210000

/-- `encryptData(data, password)` (crypto.ts lines 10-34).  `randomBytes`
has no place in a pure model; the fresh salt and IV are explicit inputs. -/
def encryptData (data : BackupManifest) (password : String) (salt iv : String) :
    EncryptedBackup :=
  let key : DerivedKey :=
    { password := password, salt := salt, iterations := kdfIterations }
  let blob : AeadBlob :=
    { key := key, iv := iv, aad := "configrep-backup", plaintext := data }
  { encrypted := true, algorithm := gcmAlgorithm, salt := salt, iv := iv,
    authTag := .genuine blob, iterations := kdfIterations, data := .blob blob }

/-- The two error families of `decryptData`: the pre-crypto format check,
and the single generic authentication failure. -/
inductive CryptoError where
  | formatError (msg : String)
  | cryptoError (msg : String)
deriving DecidableEq

/-- `decryptData(encryptedBackup, password)` (crypto.ts lines 36-66): check
the envelope flag and algorithm, re-derive the key from the password, the
envelope's salt and its recorded iteration count, then decrypt with
authentication.  Node signals any authentication mismatch with an error in
the `unable to authenticate data` family, which the catch block maps to the
one generic message; a successfully authenticated payload is the genuine
serialized manifest, so the `JSON.parse` fallback branch is unreachable. -/
def decryptData (encryptedBackup : EncryptedBackup) (password : String) :
    Except CryptoError BackupManifest :=
  if ¬(encryptedBackup.encrypted = true ∧ encryptedBackup.algorithm = gcmAlgorithm) then
    .error (.formatError "Invalid encrypted backup format")
  else
    let key : DerivedKey :=
      { password := password, salt := encryptedBackup.salt,
        iterations := encryptedBackup.iterations }
    match encryptedBackup.data with
    | .blob b =>
      if key = b.key ∧ encryptedBackup.iv = b.iv ∧ b.aad = "configrep-backup" ∧
          encryptedBackup.authTag = .genuine b then
        .ok b.plaintext
      else .error (.cryptoError "Invalid password or corrupted backup")
    | .junk _ => .error (.cryptoError "Invalid password or corrupted backup")

structure PasswordValidation where
  valid : Bool
  error : Option String := none
deriving DecidableEq

/-- `validatePassword(password)` (crypto.ts lines 68-78). -/
def validatePassword (password : String) : PasswordValidation :=
  if password.length = 0 then
    { valid := false, error := some "Password cannot be empty" }
  else if password.length < 8 then
    { valid := false, error := some "Password must be at least 8 characters long" }
  else { valid := true }

/-! ### Sample values used by concrete witnesses and counterexamples -/

def sampleManifest : BackupManifest :=
  { version := "1.0.0", created := "2024-01-01", lastModified := "2024-01-01",
    files := [] }

def sampleVersion1 : BackupVersion :=
  { versionNumber := 1, timestamp := "2024-01-01", hash := "A=x",
    content := some (.obj [("A", .str "x")]) }

def sampleVersion2 : BackupVersion :=
  { versionNumber := 2, timestamp := "2024-01-02", hash := "A=y",
    changes := some [{ op := .replace, path := "/A", value := some (.str "y") }] }

def sampleRecord : BackupFileRecord :=
  { id := "id0", originalPath := "a.env", fileName := "a.env", fileType := "env",
    versions := [sampleVersion1, sampleVersion2] }

def emptyRecord : BackupFileRecord :=
  { id := "id1", originalPath := "b.env", fileName := "b.env", fileType := "env",
    versions := [] }

def sampleGoodFile : DiscoveredFile :=
  { relativePath := "a.env", name := "a.env", fileType := "env",
    entries := [{ key := "A", value := "x" }] }

def sampleEmptyFile : DiscoveredFile :=
  { relativePath := "c.env", name := "c.env", fileType := "env" }

/-! ### Support for the flat-object round-trip statement (C1)

A JSON-Pointer-neutral key: non-empty (the applier drops operations whose
final segment is empty), not the inherited accessor name `"__proto__"`
(whose fresh assignment creates no own property), and free of the two
characters RFC 6901 escapes (the applier never unescapes `~0`/`~1`).  On
flat objects with such keys each generated operation touches one top-level
property, here abstracted as an action: set a key, or delete it. -/

def goodKey (k : String) : Bool :=
  (k != "") && ((k != "__proto__") && k.data.all (fun c => (c != '/') && (c != '~')))

/-- One top-level property action: `(k, some v)` sets, `(k, none)` deletes. -/
def applyAction (fs : List (String × Json)) (a : String × Option Json) :
    List (String × Json) :=
  match a.2 with
  | some v => setField fs a.1 v
  | none => eraseField fs a.1

/-- The actions the diff of two flat objects performs: for each old key (in
the diff's reverse enumeration order) a delete when the key left, a set when
its value changed; then a set for each fresh key of the new object. -/
def keyActs (ofs nfs : List (String × Json)) : List (String × Option Json) :=
  (ofs.reverse.filterMap (fun kv =>
    match lookupField nfs kv.1 with
    | some nv => if kv.2 ≠ nv then some (kv.1, some nv) else none
    | none => some (kv.1, none)))
  ++ (nfs.filterMap (fun kv =>
    match lookupField ofs kv.1 with
    | some _ => none
    | none => some (kv.1, some kv.2)))

/-! ### Claim theorems -/

/-- C3: decrypting an encryption of any manifest with the password that
produced it (of length at least 8) recovers the manifest, whichever fresh
salt and IV the encryption drew. -/
theorem decrypt_encrypt_roundtrip (m : BackupManifest) (p salt iv : String)
    (hp : 8 ≤ p.length) :
    decryptData (encryptData m p salt iv) p = .ok m := by
  simp [decryptData, encryptData, gcmAlgorithm]

theorem decrypt_encrypt_roundtrip_witness :
    8 ≤ ("password123" : String).length ∧
      decryptData (encryptData sampleManifest "password123" "salt0" "iv0")
        "password123" = .ok sampleManifest :=
  ⟨by decide,
   decrypt_encrypt_roundtrip sampleManifest "password123" "salt0" "iv0" (by decide)⟩

/-- C6: past the intact format header, every authentication failure of
`decryptData` — a wrong password against the genuine ciphertext and tag, a
corrupted ciphertext, or a corrupted tag — produces the one generic error
message, never one that tells the causes apart.  A byte-flipped ciphertext
or tag is, up to negligible probability, no genuine encryption and is
modelled by the `junk` constructors. -/
theorem decrypt_auth_failure_generic (m : BackupManifest) (p p2 salt iv : String)
    (d : CipherText) (t : AuthTag)
    (h : (d = (encryptData m p salt iv).data ∧ t = (encryptData m p salt iv).authTag
            ∧ p2 ≠ p)
       ∨ (∃ bytes, d = CipherText.junk bytes)
       ∨ (∃ bytes, t = AuthTag.junk bytes)) :
    decryptData { encryptData m p salt iv with data := d, authTag := t } p2 =
      .error (.cryptoError "Invalid password or corrupted backup") := by
  rcases h with ⟨hd, ht, hp⟩ | ⟨bytes, hd⟩ | ⟨bytes, ht⟩
  · subst hd; subst ht
    simp [decryptData, encryptData, gcmAlgorithm]
    intro hkey
    exact hp hkey
  · subst hd
    simp [decryptData, encryptData, gcmAlgorithm]
  · subst ht
    cases d with
    | blob b =>
      simp [decryptData, encryptData, gcmAlgorithm]
    | junk bytes2 =>
      simp [decryptData, encryptData, gcmAlgorithm]

theorem decrypt_auth_failure_generic_witness :
    (∃ bytes, CipherText.junk "zz" = CipherText.junk bytes) ∧
      decryptData { encryptData sampleManifest "password123" "salt0" "iv0" with
          data := CipherText.junk "zz",
          authTag := (encryptData sampleManifest "password123" "salt0" "iv0").authTag }
        "password123" =
        .error (.cryptoError "Invalid password or corrupted backup") :=
  ⟨⟨"zz", rfl⟩,
   decrypt_auth_failure_generic sampleManifest "password123" "password123"
     "salt0" "iv0" (CipherText.junk "zz")
     (encryptData sampleManifest "password123" "salt0" "iv0").authTag
     (Or.inr (Or.inl ⟨"zz", rfl⟩))⟩

/-- C7 as stated fails on the code: neither `encryptData` nor `decryptData`
rejects a five-character password — encryption derives the key (the KDF
output is present in the returned envelope) and the round trip succeeds. -/
theorem short_password_not_rejected :
    (encryptData sampleManifest "short" "salt0" "iv0").data =
      .blob { key := { password := "short", salt := "salt0", iterations := 210000 },
              iv := "iv0", aad := "configrep-backup", plaintext := sampleManifest } ∧
      decryptData (encryptData sampleManifest "short" "salt0" "iv0") "short" =
        .ok sampleManifest := by
  constructor
  · decide
  · decide

/-- C7 amended: the length policy lives in `validatePassword` (which the
interactive prompt runs before any encryption); it rejects the empty
password and any shorter than 8 characters, with the two source messages. -/
theorem validatePassword_rejects_short (p : String) (h : p.length < 8) :
    validatePassword p =
      (if p.length = 0 then
        { valid := false, error := some "Password cannot be empty" }
       else
        { valid := false,
          error := some "Password must be at least 8 characters long" }) := by
  unfold validatePassword
  rcases Nat.eq_zero_or_pos p.length with h0 | h0
  · simp [h0]
  · rw [if_neg (show ¬ p.length = 0 by omega), if_pos h,
        if_neg (show ¬ p.length = 0 by omega)]

theorem validatePassword_rejects_short_witness :
    ("123" : String).length < 8 ∧
      validatePassword "123" =
        { valid := false,
          error := some "Password must be at least 8 characters long" } :=
  ⟨by decide, (validatePassword_rejects_short "123" (by decide)).trans (by decide)⟩

/-- C9: `reconstructAtVersion` fails with the version-range error whenever
the target is below 1 or above the version count; on an empty record every
integer target is out of range, so it always fails there. -/
theorem reconstructAtVersion_bounds (r : BackupFileRecord) (t : Int)
    (h : t < 1 ∨ t > (r.versions.length : Int) ∨ r.versions = []) :
    reconstructAtVersion r t = .error (.invalidVersion t r.versions.length) := by
  have hcond : t < 1 ∨ t > (r.versions.length : Int) := by
    rcases h with h | h | h
    · exact Or.inl h
    · exact Or.inr h
    · rcases lt_or_ge t 1 with h1 | h1
      · exact Or.inl h1
      · right; rw [h]; simp; omega
  unfold reconstructAtVersion
  rw [if_pos hcond]

theorem reconstructAtVersion_bounds_witness :
    ((0 : Int) < 1 ∨ (0 : Int) > (emptyRecord.versions.length : Int) ∨
        emptyRecord.versions = []) ∧
      reconstructAtVersion emptyRecord 0 = .error (.invalidVersion 0 0) :=
  ⟨Or.inl (by decide), reconstructAtVersion_bounds emptyRecord 0 (Or.inl (by decide))⟩

/-- C10: when the version found for an in-range target itself stores a
content snapshot, that snapshot is returned directly, with no delta
replayed. -/
theorem reconstructAtVersion_direct (r : BackupFileRecord) (t : Int)
    (v : BackupVersion) (c : Json) (h1 : 1 ≤ t) (h2 : t ≤ (r.versions.length : Int))
    (hfind : r.versions.find? (fun w => w.versionNumber = t) = some v)
    (hc : v.content = some c) :
    reconstructAtVersion r t = .ok c := by
  unfold reconstructAtVersion
  rw [if_neg (by omega)]
  rw [hfind]
  simp [hc]

theorem reconstructAtVersion_direct_witness :
    (1 : Int) ≤ 1 ∧ (1 : Int) ≤ (sampleRecord.versions.length : Int) ∧
      sampleRecord.versions.find? (fun w => w.versionNumber = 1) =
        some sampleVersion1 ∧
      sampleVersion1.content = some (.obj [("A", .str "x")]) ∧
      reconstructAtVersion sampleRecord 1 = .ok (.obj [("A", .str "x")]) :=
  ⟨by decide, by decide, by decide, by decide,
   reconstructAtVersion_direct sampleRecord 1 sampleVersion1 (.obj [("A", .str "x")])
     (by decide) (by decide) (by decide) (by decide)⟩

/-- C5 is the code falling short of its own declared design: `createBackup`
never reads `options.password` — a run with a password is identical to one
without, reports `encrypted := false`, and hands `saveBackup` the plain
manifest, while the project design document says the whole manifest is
encrypted when a password is provided. -/
theorem createBackup_ignores_password (files : List DiscoveredFile)
    (ex : Option BackupManifest) (now : String) (d : Bool) (p : String) :
    createBackupCore files ex now { dryRun := d, password := some p } =
        createBackupCore files ex now { dryRun := d, password := none } ∧
      (createBackupCore files ex now
        { dryRun := d, password := some p }).result.encrypted = false := by
  constructor
  · rfl
  · unfold createBackupCore
    split
    · rfl
    · rfl

/-- A skipped file leaves the run state untouched (the `continue` on line
162). -/
theorem processFile_skipped (now : String) (st : BackupManifest × Nat)
    (f : DiscoveredFile) (h : fileSkipped f = true) :
    processFile now st f = st := by
  unfold processFile
  rw [if_pos]
  simp only [fileSkipped, Bool.or_eq_true, List.isEmpty_iff] at h
  exact h

/-- The backup fold ignores skipped files entirely. -/
theorem foldl_processFile_filter (now : String) (files : List DiscoveredFile) :
    ∀ st, files.foldl (processFile now) st =
      (files.filter (fun f => !(fileSkipped f))).foldl (processFile now) st := by
  induction files with
  | nil => intro st; rfl
  | cons f fs ih =>
    intro st
    by_cases hf : fileSkipped f = true
    · rw [List.foldl_cons, processFile_skipped now st f hf, List.filter_cons,
        if_neg (by simp [hf]), ih]
    · rw [List.foldl_cons, List.filter_cons, if_pos (by simp [hf]),
        List.foldl_cons, ih]

/-- C4 as stated fails on the code: a single discovered file whose parse
yields zero entries receives no FileRecord and no change count, yet the
returned `filesProcessed` is 1 — the report counts every discovered file,
skipped or not. -/
theorem skipped_file_still_processed :
    (createBackupCore [sampleEmptyFile] none "t0" {}).result.filesProcessed = 1 ∧
      (createBackupCore [sampleEmptyFile] none "t0" {}).result.changesDetected = 0 ∧
      (createBackupCore [sampleEmptyFile] none "t0" {}).manifestAfter =
        some { version := "1.0.0", created := "t0", lastModified := "t0",
               files := [] } := by
  refine ⟨by decide, by decide, by decide⟩

/-- C4 amended: a discovered file whose parse fails or yields zero entries
receives no FileRecord and contributes nothing to `changesDetected` or to
the manifest — the run is the run over the unskipped files alone — but
`filesProcessed` reports the full discovery count, skipped files included. -/
theorem skipped_files_only_in_processed_count (files : List DiscoveredFile)
    (ex : Option BackupManifest) (now : String) (opts : BackupOptions)
    (hne : files ≠ []) :
    (createBackupCore files ex now opts).result.filesProcessed = files.length ∧
      (createBackupCore files ex now opts).result.changesDetected =
        ((files.filter (fun f => !(fileSkipped f))).foldl (processFile now)
          (initialManifest ex now, 0)).2 ∧
      (createBackupCore files ex now opts).manifestAfter =
        some ((files.filter (fun f => !(fileSkipped f))).foldl (processFile now)
          (initialManifest ex now, 0)).1 := by
  unfold createBackupCore
  rw [if_neg hne]
  exact ⟨rfl, by rw [foldl_processFile_filter], by rw [foldl_processFile_filter]⟩

theorem skipped_files_only_in_processed_count_witness :
    ([sampleEmptyFile, sampleGoodFile] ≠ ([] : List DiscoveredFile)) ∧
      ((createBackupCore [sampleEmptyFile, sampleGoodFile] none "t0" {}).result.filesProcessed =
          [sampleEmptyFile, sampleGoodFile].length ∧
        (createBackupCore [sampleEmptyFile, sampleGoodFile] none "t0" {}).result.changesDetected =
          (([sampleEmptyFile, sampleGoodFile].filter (fun f => !(fileSkipped f))).foldl
            (processFile "t0") (initialManifest none "t0", 0)).2 ∧
        (createBackupCore [sampleEmptyFile, sampleGoodFile] none "t0" {}).manifestAfter =
          some (([sampleEmptyFile, sampleGoodFile].filter (fun f => !(fileSkipped f))).foldl
            (processFile "t0") (initialManifest none "t0", 0)).1) :=
  ⟨by decide,
   skipped_files_only_in_processed_count [sampleEmptyFile, sampleGoodFile] none "t0" {}
     (by decide)⟩

/-! ### C8: the version-numbering invariant survives a run -/

/-- Replacing one record and keeping the rest preserves a per-record
property that the replacement also enjoys. -/
theorem replaceFirstRecord_mem (l : List BackupFileRecord) (fid : String)
    (nr r : BackupFileRecord) :
    r ∈ replaceFirstRecord l fid nr → r ∈ l ∨ r = nr := by
  induction l with
  | nil => intro h; simp [replaceFirstRecord] at h
  | cons x xs ih =>
    intro h
    unfold replaceFirstRecord at h
    by_cases hx : x.id = fid
    · rw [if_pos hx] at h
      rcases List.mem_cons.mp h with h | h
      · exact Or.inr h
      · exact Or.inl (List.mem_cons_of_mem x h)
    · rw [if_neg hx] at h
      rcases List.mem_cons.mp h with h | h
      · exact Or.inl (h ▸ List.mem_cons_self x xs)
      · rcases ih h with h2 | h2
        · exact Or.inl (List.mem_cons_of_mem x h2)
        · exact Or.inr h2

/-- Appending the version numbered `base + length + 1` keeps a list
numbered from `base`. -/
theorem versionsNumberedFrom_append (vs : List BackupVersion) :
    ∀ (base : Nat) (v : BackupVersion),
      versionsNumberedFrom base vs = true →
      v.versionNumber = (base : Int) + vs.length + 1 →
      versionsNumberedFrom base (vs ++ [v]) = true := by
  induction vs with
  | nil =>
    intro base v _ hv
    simp [versionsNumberedFrom, hv]
  | cons w ws ih =>
    intro base v hvs hv
    simp only [versionsNumberedFrom, Bool.and_eq_true, decide_eq_true_eq] at hvs
    simp only [List.cons_append, versionsNumberedFrom, Bool.and_eq_true,
      decide_eq_true_eq]
    refine ⟨hvs.1, ih (base + 1) v hvs.2 ?_⟩
    rw [hv]
    simp [List.length_cons]
    omega

/-- Looking up the record for a file id — falling back to the fresh empty
record pushed for an untracked file — yields a numbered record whenever the
manifest is numbered. -/
theorem rec0_numbered (mfiles : List BackupFileRecord) (fid : String)
    (dflt : BackupFileRecord) (hd : recordNumbered dflt)
    (h : ∀ r ∈ mfiles, recordNumbered r) :
    recordNumbered ((mfiles.find? (fun r => r.id = fid)).getD dflt) := by
  cases hf : mfiles.find? (fun r => r.id = fid) with
  | none => simpa using hd
  | some rr => simpa using h rr (List.mem_of_find?_eq_some hf)

/-- Membership in the manifest after an untracked file's record is pushed. -/
theorem files1_numbered (mfiles : List BackupFileRecord)
    (rec0 : BackupFileRecord) (b : Bool)
    (h : ∀ r ∈ mfiles, recordNumbered r) (hrec : recordNumbered rec0) :
    ∀ r ∈ (if b then mfiles else mfiles ++ [rec0]), recordNumbered r := by
  cases b with
  | true => simpa using h
  | false =>
    intro r hr
    rcases (by simpa using hr : r ∈ mfiles ∨ r = rec0) with h2 | h2
    · exact h r h2
    · rw [h2]; exact hrec

/-- Appending the version numbered `versions.length + 1` to the aliased
record keeps every record of the manifest numbered. -/
theorem update_step_numbered (mfiles : List BackupFileRecord) (fid : String)
    (rec0 : BackupFileRecord) (b : Bool) (v : BackupVersion)
    (h : ∀ r ∈ mfiles, recordNumbered r) (hrec : recordNumbered rec0)
    (hv : v.versionNumber = (rec0.versions.length : Int) + 1) :
    ∀ r ∈ replaceFirstRecord (if b then mfiles else mfiles ++ [rec0]) fid
        { rec0 with versions := rec0.versions ++ [v] },
      recordNumbered r := by
  intro r hr
  rcases replaceFirstRecord_mem _ _ _ _ hr with h1 | h1
  · exact files1_numbered mfiles rec0 b h hrec r h1
  · subst h1
    unfold recordNumbered
    refine versionsNumberedFrom_append _ 0 v hrec ?_
    rw [hv]
    omega

/-- One iteration of the backup loop preserves the numbering invariant. -/
theorem processFile_preserves_numbering (now : String) (st : BackupManifest × Nat)
    (f : DiscoveredFile) (h : ∀ r ∈ st.1.files, recordNumbered r) :
    ∀ r ∈ (processFile now st f).1.files, recordNumbered r := by
  simp only [processFile]
  split
  · exact h
  · have hrec := rec0_numbered st.1.files (hashContent (.str f.relativePath))
      { id := hashContent (.str f.relativePath), originalPath := f.relativePath,
        fileName := f.name, fileType := f.fileType, versions := [] }
      (by unfold recordNumbered versionsNumberedFrom; rfl) h
    split
    · exact update_step_numbered _ _ _ _ _ h hrec rfl
    · split
      · exact files1_numbered _ _ _ h hrec
      · split
        · exact files1_numbered _ _ _ h hrec
        · exact update_step_numbered _ _ _ _ _ h hrec rfl

/-- The whole backup fold preserves the numbering invariant. -/
theorem foldl_processFile_numbering (now : String) (files : List DiscoveredFile) :
    ∀ st : BackupManifest × Nat, (∀ r ∈ st.1.files, recordNumbered r) →
      ∀ r ∈ (files.foldl (processFile now) st).1.files, recordNumbered r := by
  induction files with
  | nil => intro st h; exact h
  | cons f fs ih =>
    intro st h
    rw [List.foldl_cons]
    exact ih (processFile now st f) (processFile_preserves_numbering now st f h)

/-- C8: a backup run preserves the manifest invariant that every record of
the manifest carries versions numbered 1, 2, ... in order with no gaps;
each appended version is built with `versionNumber := versions.length + 1`
(lines 190-204), which is exactly what keeps the invariant. -/
theorem backup_preserves_version_numbering (files : List DiscoveredFile)
    (ex : Option BackupManifest) (now : String) (opts : BackupOptions)
    (h : ∀ r ∈ (initialManifest ex now).files, recordNumbered r) :
    ∀ m, (createBackupCore files ex now opts).manifestAfter = some m →
      ∀ r ∈ m.files, recordNumbered r := by
  intro m hm
  unfold createBackupCore at hm
  by_cases hne : files = []
  · rw [if_pos hne] at hm
    simp at hm
  · rw [if_neg hne] at hm
    simp only [Option.some.injEq] at hm
    rw [← hm]
    exact foldl_processFile_numbering now files (initialManifest ex now, 0) h

def mWitnessC8 : BackupManifest :=
  { version := "1.0.0", created := "t1", lastModified := "t1",
    files := [{ id := "a.env", originalPath := "a.env", fileName := "a.env",
                fileType := "env",
                versions := [{ versionNumber := 1, timestamp := "t1",
                               hash := "\x7b\"A\":\"x\"\x7d",
                               content := some (.obj [("A", .str "x")]) }] }] }

theorem backup_preserves_version_numbering_witness :
    (∀ r ∈ (initialManifest none "t1").files, recordNumbered r) ∧
      recordNumbered
        { id := "a.env", originalPath := "a.env", fileName := "a.env",
          fileType := "env",
          versions := [{ versionNumber := 1, timestamp := "t1",
                         hash := "\x7b\"A\":\"x\"\x7d",
                         content := some (.obj [("A", .str "x")]) }] } :=
  ⟨by decide,
   backup_preserves_version_numbering [sampleGoodFile] none "t1" {} (by decide)
     mWitnessC8 (by decide)
     { id := "a.env", originalPath := "a.env", fileName := "a.env",
       fileType := "env",
       versions := [{ versionNumber := 1, timestamp := "t1",
                      hash := "\x7b\"A\":\"x\"\x7d",
                      content := some (.obj [("A", .str "x")]) }] }
     (by decide)⟩

/-- On a list numbered `base + 1, ...`, `find?` by version number is the
positional lookup. -/
theorem find_numbered (vs : List BackupVersion) :
    ∀ (base : Nat) (t : Int), versionsNumberedFrom base vs = true →
      (base : Int) < t → t ≤ (base : Int) + vs.length →
      vs.find? (fun v => v.versionNumber = t) = vs.get? (t - base - 1).toNat := by
  induction vs with
  | nil =>
    intro base t _ h1 h2
    simp at h2
    omega
  | cons v rest ih =>
    intro base t h h1 h2
    simp only [versionsNumberedFrom, Bool.and_eq_true, decide_eq_true_eq] at h
    by_cases ht : t = (base : Int) + 1
    · rw [List.find?_cons_of_pos _ (by simp [h.1, ht])]
      have hz : (t - base - 1).toNat = 0 := by omega
      rw [hz]
      rfl
    · rw [List.find?_cons_of_neg _ (by simp [h.1]; omega)]
      rw [ih (base + 1) t h.2 (by omega) (by simp at h2 ⊢; omega)]
      have hs : (t - base - 1).toNat = (t - (base + 1) - 1).toNat + 1 := by omega
      rw [hs]
      simp [List.get?_cons_succ]

/-- When every version in the slice carries deltas, the replay loop of
`reconstructAtVersion` computes exactly the spec's replay. -/
theorem foldl_changes_eq (vs : List BackupVersion) :
    ∀ start : Json, (∀ v ∈ vs, v.changes.isSome = true) →
      vs.foldl (fun acc v =>
        match v.changes with
        | some cs => applyPatches acc cs
        | none => acc) start = replayUpTo vs start := by
  induction vs with
  | nil => intro start _; rfl
  | cons v rest ih =>
    intro start h
    obtain ⟨cs, hcs⟩ := Option.isSome_iff_exists.mp (h v (List.mem_cons_self v rest))
    unfold replayUpTo
    rw [List.foldl_cons, List.foldl_cons, hcs]
    have := ih (applyPatches start cs) (fun w hw => h w (List.mem_cons_of_mem v hw))
    unfold replayUpTo at this
    simpa using this

/-- C2: under the manifest invariant, reconstruction at any in-range version
is exactly the spec's replay: start from the version-1 snapshot and apply
`versions[i].changes` through the Delta Codec for `i` from 1 to
`targetVersion - 1` in increasing order. -/
theorem reconstructAtVersion_replays (r : BackupFileRecord) (t : Int) (c : Json)
    (hwf : VersionsWellFormed r = true) (h1 : 1 ≤ t)
    (h2 : t ≤ (r.versions.length : Int))
    (hc : r.versions.head?.bind (fun v => v.content) = some c) :
    reconstructAtVersion r t =
      .ok (replayUpTo ((r.versions.drop 1).take (t.toNat - 1)) c) := by
  have hwf2 := hwf
  unfold VersionsWellFormed at hwf2
  rw [Bool.and_eq_true] at hwf2
  obtain ⟨hnum, hsd⟩ := hwf2
  cases hvs : r.versions with
  | nil => rw [hvs] at h2; simp at h2; omega
  | cons v0 rest =>
    rw [hvs] at hc hnum hsd
    simp only [List.head?_cons, Option.some_bind] at hc
    unfold snapshotThenDeltas at hsd
    simp only [Bool.and_eq_true, List.all_eq_true, Bool.and_eq_true] at hsd
    have hv0num : v0.versionNumber = 1 := by
      unfold versionsNumberedFrom at hnum
      rw [Bool.and_eq_true] at hnum
      simpa using hnum.1
    have hlen : t ≤ (1 : Int) + rest.length := by
      rw [hvs] at h2
      simp only [List.length_cons] at h2
      push_cast at h2 ⊢
      omega
    unfold reconstructAtVersion
    rw [hvs]
    rw [if_neg (by rw [hvs] at h2; push_neg; refine ⟨by omega, h2⟩)]
    by_cases ht1 : t = 1
    · subst ht1
      rw [List.find?_cons_of_pos _ (by simp [hv0num])]
      simp only [hc, List.drop_one, List.tail_cons,
        show (1 : Int).toNat - 1 = 0 from by omega, List.take_zero]
      rfl
    · have hfind := find_numbered (v0 :: rest) 0 t hnum (by omega)
        (by push_cast [List.length_cons]; push_cast at hlen; omega)
      simp only [Nat.cast_zero, Int.sub_zero] at hfind
      have hn : (t - 1).toNat = ((t - 1).toNat - 1) + 1 := by omega
      have hget : ∃ vt, rest.get? ((t - 1).toNat - 1) = some vt := by
        have hlt : (t - 1).toNat - 1 < rest.length := by
          push_cast at hlen
          omega
        exact ⟨rest.get ⟨(t - 1).toNat - 1, hlt⟩, List.get?_eq_get hlt⟩
      obtain ⟨vt, hvt⟩ := hget
      have hfind2 : List.find? (fun v => decide (v.versionNumber = t)) (v0 :: rest) =
          some vt := by
        rw [hfind, hn, List.get?_cons_succ, hvt]
      rw [hfind2]
      have hmem : vt ∈ rest := List.get?_mem hvt
      have hvtprop := hsd.2 vt hmem
      have hvtcontent : vt.content = none := by simpa using hvtprop.1
      simp only [hvtcontent, List.head?_cons, hc, List.drop_one, List.tail_cons]
      congr 1
      exact foldl_changes_eq (rest.take (t.toNat - 1)) c
        (fun w hw => (hsd.2 w (List.mem_of_mem_take hw)).2)

theorem reconstructAtVersion_replays_witness :
    VersionsWellFormed sampleRecord = true ∧ (1 : Int) ≤ 2 ∧
      (2 : Int) ≤ (sampleRecord.versions.length : Int) ∧
      sampleRecord.versions.head?.bind (fun v => v.content) =
        some (.obj [("A", .str "x")]) ∧
      reconstructAtVersion sampleRecord 2 =
        .ok (replayUpTo ((sampleRecord.versions.drop 1).take 1)
          (.obj [("A", .str "x")])) :=
  ⟨by decide, by decide, by decide, by decide,
   reconstructAtVersion_replays sampleRecord 2 (.obj [("A", .str "x")])
     (by decide) (by decide) (by decide) (by decide)⟩

/-! ### Field-lookup lemmas for the flat round-trip -/

theorem lookup_setField_self (fs : List (String × Json)) (k : String) (v : Json)
    (hp : k ≠ "__proto__") : lookupField (setField fs k v) k = some v := by
  induction fs with
  | nil => simp [setField, lookupField, hp]
  | cons kv rest ih =>
    obtain ⟨k0, v0⟩ := kv
    by_cases hk : k0 = k
    · simp [setField, hk, lookupField]
    · simp only [setField, if_neg hk]
      simpa [lookupField, List.find?_cons, hk] using ih

theorem lookup_setField_ne (fs : List (String × Json)) (k q : String) (v : Json)
    (h : k ≠ q) : lookupField (setField fs k v) q = lookupField fs q := by
  induction fs with
  | nil =>
    by_cases hp : k = "__proto__"
    · simp [setField, hp, lookupField]
    · simp [setField, hp, lookupField, List.find?_cons, decide_eq_false h]
  | cons kv rest ih =>
    obtain ⟨k0, v0⟩ := kv
    by_cases hk : k0 = k
    · subst hk
      simp [setField, lookupField, List.find?_cons, h]
    · simp only [setField, if_neg hk]
      by_cases hq : k0 = q
      · simp [lookupField, List.find?_cons, hq]
      · simpa [lookupField, List.find?_cons, hq] using ih

theorem lookup_eraseField_self (fs : List (String × Json)) (k : String)
    (h : (fs.map Prod.fst).Nodup) : lookupField (eraseField fs k) k = none := by
  induction fs with
  | nil => simp [eraseField, lookupField]
  | cons kv rest ih =>
    obtain ⟨k0, v0⟩ := kv
    simp only [List.map_cons, List.nodup_cons] at h
    by_cases hk : k0 = k
    · subst hk
      rw [eraseField, if_pos rfl]
      rw [lookupField]
      have hfind : List.find? (fun kv => decide (kv.1 = k0)) rest = none := by
        rw [List.find?_eq_none]
        intro kv2 hkv2
        simp only [decide_eq_true_eq]
        intro heq
        exact h.1 (heq ▸ List.mem_map_of_mem Prod.fst hkv2)
      rw [hfind]
      rfl
    · rw [eraseField, if_neg hk]
      simpa [lookupField, List.find?_cons, hk] using ih h.2

theorem lookup_eraseField_ne (fs : List (String × Json)) (k q : String)
    (h : k ≠ q) : lookupField (eraseField fs k) q = lookupField fs q := by
  induction fs with
  | nil => simp [eraseField]
  | cons kv rest ih =>
    obtain ⟨k0, v0⟩ := kv
    by_cases hk : k0 = k
    · subst hk
      simp [eraseField, lookupField, List.find?_cons, h]
    · rw [eraseField, if_neg hk]
      by_cases hq : k0 = q
      · simp [lookupField, List.find?_cons, hq]
      · simpa [lookupField, List.find?_cons, hq] using ih

theorem lookupField_eq_none_iff (fs : List (String × Json)) (k : String) :
    lookupField fs k = none ↔ k ∉ fs.map Prod.fst := by
  rw [lookupField, Option.map_eq_none', List.find?_eq_none]
  constructor
  · intro h hk
    obtain ⟨kv, hkv, hfst⟩ := List.mem_map.mp hk
    exact absurd (by simpa using hfst) (by simpa using h kv hkv)
  · intro h kv hkv
    simp only [decide_eq_true_eq]
    intro heq
    exact h (heq ▸ List.mem_map_of_mem Prod.fst hkv)

theorem lookupField_mem (fs : List (String × Json)) (k : String) (v : Json)
    (h : lookupField fs k = some v) : (k, v) ∈ fs := by
  rw [lookupField, Option.map_eq_some'] at h
  obtain ⟨kv, hfind, hv⟩ := h
  have hmem := List.mem_of_find?_eq_some hfind
  have hk : kv.1 = k := by simpa using List.find?_some hfind
  obtain ⟨a, b⟩ := kv
  simp only at hk hv
  rw [hk, hv] at hmem
  exact hmem

theorem mem_lookupField (fs : List (String × Json)) (k : String) (v : Json)
    (hnd : (fs.map Prod.fst).Nodup) (h : (k, v) ∈ fs) :
    lookupField fs k = some v := by
  induction fs with
  | nil => simp at h
  | cons kv rest ih =>
    obtain ⟨k0, v0⟩ := kv
    simp only [List.map_cons, List.nodup_cons] at hnd
    rcases List.mem_cons.mp h with h1 | h1
    · rw [← h1]
      simp [lookupField, List.find?_cons]
    · by_cases hk : k0 = k
      · exfalso
        apply hnd.1
        rw [hk]
        exact List.mem_map_of_mem Prod.fst h1
      · simpa [lookupField, List.find?_cons, hk] using ih hnd.2 h1

theorem setField_keys (fs : List (String × Json)) (k : String) (v : Json) :
    (setField fs k v).map Prod.fst = fs.map Prod.fst ∨
      ((setField fs k v).map Prod.fst = fs.map Prod.fst ++ [k] ∧
        k ∉ fs.map Prod.fst) := by
  induction fs with
  | nil =>
    by_cases hp : k = "__proto__"
    · left
      simp [setField, hp]
    · right
      constructor
      · simp [setField, hp]
      · simp
  | cons kv rest ih =>
    obtain ⟨k0, v0⟩ := kv
    by_cases hk : k0 = k
    · left
      simp [setField, hk]
    · rcases ih with h1 | ⟨h1, h2⟩
      · left
        simp only [setField, if_neg hk, List.map_cons, h1]
      · right
        constructor
        · simp only [setField, if_neg hk, List.map_cons, h1, List.cons_append]
        · simp only [List.map_cons, List.mem_cons, not_or]
          exact ⟨fun heq => hk heq.symm, h2⟩

theorem eraseField_keys_sublist (fs : List (String × Json)) (k : String) :
    List.Sublist ((eraseField fs k).map Prod.fst) (fs.map Prod.fst) := by
  induction fs with
  | nil => simp [eraseField]
  | cons kv rest ih =>
    obtain ⟨k0, v0⟩ := kv
    by_cases hk : k0 = k
    · rw [eraseField, if_pos hk]
      exact (List.sublist_cons_self k0 (rest.map Prod.fst))
    · rw [eraseField, if_neg hk]
      simpa using ih.cons₂ k0

theorem applyAction_nodup (fs : List (String × Json)) (a : String × Option Json)
    (h : (fs.map Prod.fst).Nodup) : ((applyAction fs a).map Prod.fst).Nodup := by
  obtain ⟨k, act⟩ := a
  cases act with
  | none => exact (eraseField_keys_sublist fs k).nodup h
  | some v =>
    unfold applyAction
    rcases setField_keys fs k v with h1 | ⟨h1, h2⟩
    · rw [h1]
      exact h
    · rw [h1]
      refine List.Nodup.append h (List.nodup_singleton k) ?_
      intro a ha hb
      rw [List.mem_singleton] at hb
      rw [hb] at ha
      exact h2 ha

/-! ### Path-string lemmas for pointer-neutral keys -/

theorem escapeComponent_goodKey (k : String) (h : goodKey k = true) :
    escapeComponent k = k := by
  unfold goodKey at h
  simp only [Bool.and_eq_true] at h
  have hall : ∀ cs : List Char,
      cs.all (fun c => (c != '/') && (c != '~')) = true →
      cs.foldr (fun c acc =>
        if c = '~' then '~' :: '0' :: acc
        else if c = '/' then '~' :: '1' :: acc
        else c :: acc) [] = cs := by
    intro cs
    induction cs with
    | nil => intro _; rfl
    | cons c rest ih =>
      intro hcs
      simp only [List.all_cons, Bool.and_eq_true, bne_iff_ne, ne_eq] at hcs
      rw [List.foldr_cons, if_neg hcs.1.2, if_neg hcs.1.1, ih (by
        rw [List.all_eq_true]
        intro x hx
        have := hcs.2
        rw [List.all_eq_true] at this
        exact this x hx)]
  unfold escapeComponent
  rw [hall k.data h.2.2]

theorem splitSlashCh_cons_slash (cs : List Char) :
    splitSlashCh ('/' :: cs) = "" :: splitSlashCh cs := by
  simp [splitSlashCh]

theorem splitSlashCh_no_slash (cs : List Char)
    (h : cs.all (fun c => c != '/') = true) :
    splitSlashCh cs = [String.mk cs] := by
  induction cs with
  | nil => rfl
  | cons c rest ih =>
    simp only [List.all_cons, Bool.and_eq_true, bne_iff_ne, ne_eq] at h
    simp only [splitSlashCh, ih (by
      rw [List.all_eq_true]
      intro x hx
      have := h.2
      rw [List.all_eq_true] at this
      exact this x hx)]
    rw [if_neg h.1]

/-- The path the diff writes for a pointer-neutral key splits back into that
single key. -/
theorem splitSlash_key (k : String) (h : goodKey k = true) :
    (splitSlash ("" ++ "/" ++ escapeComponent k)).drop 1 = [k] := by
  rw [escapeComponent_goodKey k h]
  unfold goodKey at h
  simp only [Bool.and_eq_true] at h
  have hnos : k.data.all (fun c => c != '/') = true := by
    rw [List.all_eq_true]
    intro x hx
    have := h.2.2
    rw [List.all_eq_true] at this
    exact Bool.and_elim_left (this x hx)
  obtain ⟨cs⟩ := k
  show (splitSlash (String.mk ('/' :: cs))).drop 1 = [String.mk cs]
  unfold splitSlash
  rw [splitSlashCh_cons_slash, splitSlashCh_no_slash cs hnos]
  rfl

/-- The key of a pointer-neutral path is non-empty. -/
theorem goodKey_ne_empty (k : String) (h : goodKey k = true) : k ≠ "" := by
  unfold goodKey at h
  simp only [Bool.and_eq_true] at h
  simpa using h.1

/-- A pointer-neutral key is not the inherited accessor name. -/
theorem goodKey_ne_proto (k : String) (h : goodKey k = true) :
    k ≠ "__proto__" := by
  unfold goodKey at h
  simp only [Bool.and_eq_true] at h
  simpa using h.2.1

/-! ### Per-operation effect on a flat object -/

theorem eraseField_absent (fs : List (String × Json)) (k : String)
    (h : lookupField fs k = none) : eraseField fs k = fs := by
  induction fs with
  | nil => rfl
  | cons kv rest ih =>
    obtain ⟨k0, v0⟩ := kv
    by_cases hk : k0 = k
    · exfalso
      rw [lookupField] at h
      rw [List.find?_cons_of_pos _ (by simpa using hk)] at h
      simp at h
    · rw [eraseField, if_neg hk, ih (by
        rw [lookupField] at h ⊢
        rwa [List.find?_cons_of_neg _ (by simpa using hk)] at h)]

theorem applyOne_set_flat (fs : List (String × Json)) (p : VersionDelta)
    (k : String) (v : Json) (hop : p.op = .add ∨ p.op = .replace)
    (hparts : (splitSlash p.path).drop 1 = [k]) (hk : k ≠ "")
    (hv : p.value = some v) :
    applyOne (.obj fs) p = .obj (setField fs k v) := by
  unfold applyOne
  rcases hop with hop | hop <;>
    simp only [hop, hparts, hv, addWalk, if_neg hk, Option.getD_some]

theorem applyOne_del_flat (fs : List (String × Json)) (p : VersionDelta)
    (k : String) (hop : p.op = .remove)
    (hparts : (splitSlash p.path).drop 1 = [k]) (hk : k ≠ "") :
    applyOne (.obj fs) p = .obj (eraseField fs k) := by
  unfold applyOne
  simp only [hop, hparts, List.reverse_cons, List.reverse_nil, List.nil_append]
  by_cases hmem : (lookupField fs k).isSome
  · simp [removeDescend, removeLast, hk, hmem]
  · simp only [Bool.not_eq_true, Option.not_isSome, Option.isNone_iff_eq_none] at hmem
    simp [removeDescend, removeLast, hk, hmem, eraseField_absent fs k hmem]

/-- How one generated operation relates to the property action it encodes. -/
def opMatchesAction (p : VersionDelta) (a : String × Option Json) : Prop :=
  a.1 ≠ "" ∧ (splitSlash p.path).drop 1 = [a.1] ∧
    match a.2 with
    | some v => (p.op = .add ∨ p.op = .replace) ∧ p.value = some v
    | none => p.op = .remove

/-- Operation by operation, the patch loop performs the key actions. -/
theorem foldl_applyOne_matches (ops : List VersionDelta)
    (acts : List (String × Option Json))
    (h : List.Forall₂ opMatchesAction ops acts) :
    ∀ fs, ops.foldl applyOne (.obj fs) = .obj (acts.foldl applyAction fs) := by
  induction h with
  | nil => intro fs; rfl
  | @cons p a ops2 acts2 hpa hrest ih =>
    intro fs
    rw [List.foldl_cons, List.foldl_cons]
    obtain ⟨hk, hparts, hact⟩ := hpa
    obtain ⟨k, act⟩ := a
    cases act with
    | some v =>
      rw [applyOne_set_flat fs p k v hact.1 hparts hk hact.2]
      exact ih (setField fs k v)
    | none =>
      rw [applyOne_del_flat fs p k hact hparts hk]
      exact ih (eraseField fs k)

/-! ### Final lookups after a run of key actions -/

theorem foldl_applyAction_frame (acts : List (String × Option Json)) :
    ∀ (fs : List (String × Json)) (q : String), (∀ a ∈ acts, a.1 ≠ q) →
      lookupField (acts.foldl applyAction fs) q = lookupField fs q := by
  induction acts with
  | nil => intro fs q _; rfl
  | cons a rest ih =>
    intro fs q h
    rw [List.foldl_cons]
    rw [ih (applyAction fs a) q (fun b hb => h b (List.mem_cons_of_mem a hb))]
    obtain ⟨k, act⟩ := a
    have hk : k ≠ q := h (k, act) (List.mem_cons_self _ _)
    cases act with
    | some v => exact lookup_setField_ne fs k q v hk
    | none => exact lookup_eraseField_ne fs k q hk

theorem foldl_applyAction_effect (acts : List (String × Option Json)) :
    ∀ (fs : List (String × Json)) (k : String) (act : Option Json),
      (acts.map Prod.fst).Nodup → (fs.map Prod.fst).Nodup → k ≠ "__proto__" →
      (k, act) ∈ acts →
      lookupField (acts.foldl applyAction fs) k = act := by
  induction acts with
  | nil => intro fs k act _ _ _ h; simp at h
  | cons a rest ih =>
    intro fs k act hnd hfs hproto h
    simp only [List.map_cons, List.nodup_cons] at hnd
    rw [List.foldl_cons]
    rcases List.mem_cons.mp h with h1 | h1
    · subst h1
      rw [foldl_applyAction_frame rest (applyAction fs (k, act)) k (by
        intro b hb heq
        apply hnd.1
        have hbm : b.1 ∈ List.map Prod.fst rest := List.mem_map_of_mem Prod.fst hb
        rw [heq] at hbm
        exact hbm)]
      cases act with
      | some v => exact lookup_setField_self fs k v hproto
      | none => exact lookup_eraseField_self fs k hfs
    · exact ih (applyAction fs a) k act hnd.2 (applyAction_nodup fs a hfs) hproto h1

/-! ### The diff of two flat objects, characterized -/

theorem genOldKeys_flat (recurse : Json → Json → String → List VersionDelta)
    (ofs nfs : List (String × Json)) (L : List (String × Json))
    (hL : ∀ kv ∈ L, kv.2.isContainer = false) :
    genOldKeys recurse (.obj ofs) (.obj nfs) "" L =
      (L.filterMap (fun kv =>
        match lookupField nfs kv.1 with
        | some nv =>
          if kv.2 ≠ nv then
            some { op := PatchOp.replace,
                   path := "" ++ "/" ++ escapeComponent kv.1, value := some nv }
          else none
        | none => some { op := PatchOp.remove,
                         path := "" ++ "/" ++ escapeComponent kv.1 }),
       L.any (fun kv => (lookupField nfs kv.1).isNone)) := by
  induction L with
  | nil => rfl
  | cons kv rest ih =>
    obtain ⟨k, v⟩ := kv
    have hv : v.isContainer = false := by
      simpa using hL (k, v) (List.mem_cons_self _ _)
    rw [List.filterMap_cons, List.any_cons]
    unfold genOldKeys
    rw [ih (fun kv2 hkv2 => hL kv2 (List.mem_cons_of_mem _ hkv2))]
    show (match getKey (.obj nfs) k with
      | some newVal => _
      | none => _) = _
    have hget : getKey (.obj nfs) k = lookupField nfs k := rfl
    rw [hget]
    cases hnk : lookupField nfs k with
    | some nv =>
      dsimp only
      have hcond : ¬(v.isContainer = true ∧ nv.isContainer = true ∧
          v.isArray = nv.isArray) := by
        rw [hv]
        simp
      rw [if_neg hcond]
      by_cases hne : v ≠ nv
      · simp [hne, hnk]
      · simp [hne, hnk]
    | none =>
      dsimp only
      rw [if_pos (show (Json.obj ofs).isArray = (Json.obj nfs).isArray from rfl)]
      simp [hnk]

theorem genAddKeys_flat (ofs nfs : List (String × Json)) (path : String)
    (L : List (String × Json)) :
    genAddKeys (.obj ofs) (.obj nfs) path L =
      L.filterMap (fun kv =>
        match lookupField ofs kv.1 with
        | some _ => none
        | none => some { op := PatchOp.add,
                         path := path ++ "/" ++ escapeComponent kv.1,
                         value := some kv.2 }) := by
  induction L with
  | nil => rfl
  | cons kv rest ih =>
    obtain ⟨k, v⟩ := kv
    rw [List.filterMap_cons]
    unfold genAddKeys
    have hget : getKey (.obj ofs) k = lookupField ofs k := rfl
    rw [hget, ih]
    cases hok : lookupField ofs k with
    | some ov => simp [hok]
    | none => simp [hok]

/-- When no old key disappeared and the key counts agree, every new key is
already tracked (the branch where `_generate` skips the add loop). -/
theorem nfs_keys_covered (ofs nfs : List (String × Json))
    (ho1 : (ofs.map Prod.fst).Nodup) (hn1 : (nfs.map Prod.fst).Nodup)
    (hnodel : ofs.reverse.any (fun kv => (lookupField nfs kv.1).isNone) = false)
    (hlen : nfs.length = ofs.length) :
    ∀ kv ∈ nfs, (lookupField ofs kv.1).isSome = true := by
  rw [List.any_eq_false] at hnodel
  have hsub : ofs.map Prod.fst ⊆ nfs.map Prod.fst := by
    intro x hx
    obtain ⟨kv, hkv, hfst⟩ := List.mem_map.mp hx
    have h1 := hnodel kv (List.mem_reverse.mpr hkv)
    have h2 : lookupField nfs kv.1 ≠ none := by
      intro he
      exact h1 (by rw [he]; rfl)
    have hmem : kv.1 ∈ nfs.map Prod.fst := by
      by_contra hc
      exact h2 ((lookupField_eq_none_iff nfs kv.1).mpr hc)
    rwa [hfst] at hmem
  have hsubp := List.subperm_of_subset ho1 hsub
  have hperm := hsubp.perm_of_length_le (by simp [hlen])
  intro kv hkv
  have hmem : kv.1 ∈ ofs.map Prod.fst :=
    hperm.mem_iff.mpr (List.mem_map_of_mem Prod.fst hkv)
  cases ho : lookupField ofs kv.1 with
  | some _ => rfl
  | none => exact absurd hmem ((lookupField_eq_none_iff ofs kv.1).mp ho)

/-- Pointwise relation between two optional results. -/
def optionRel {γ δ : Type} (R : γ → δ → Prop) : Option γ → Option δ → Prop
  | none, none => True
  | some c, some d => R c d
  | _, _ => False

theorem forall₂_filterMap {α γ δ : Type} (R : γ → δ → Prop)
    (f : α → Option γ) (g : α → Option δ) (L : List α)
    (h : ∀ x ∈ L, optionRel R (f x) (g x)) :
    List.Forall₂ R (L.filterMap f) (L.filterMap g) := by
  induction L with
  | nil => constructor
  | cons x rest ih =>
    have hx := h x (List.mem_cons_self _ _)
    have hrest := ih (fun y hy => h y (List.mem_cons_of_mem _ hy))
    rw [List.filterMap_cons, List.filterMap_cons]
    cases hf : f x with
    | none =>
      cases hg : g x with
      | none => exact hrest
      | some d => rw [hf, hg] at hx; exact absurd hx (by simp [optionRel])
    | some c =>
      cases hg : g x with
      | none => rw [hf, hg] at hx; exact absurd hx (by simp [optionRel])
      | some d =>
        rw [hf, hg] at hx
        exact List.Forall₂.cons hx hrest

theorem filterMap_keys_sublist {α β : Type} (key : α → String)
    (f : α → Option (String × β)) (L : List α)
    (hf : ∀ x a, f x = some a → a.1 = key x) :
    List.Sublist ((L.filterMap f).map Prod.fst) (L.map key) := by
  induction L with
  | nil => simp
  | cons x rest ih =>
    rw [List.map_cons, List.filterMap_cons]
    cases hfx : f x with
    | none => exact ih.cons (key x)
    | some a =>
      rw [List.map_cons, hf x a hfx]
      exact ih.cons₂ (key x)

/-- The first component of every key action is the key it came from. -/
theorem keyActs_first_old (nfs : List (String × Json)) (kv : String × Json)
    (a : String × Option Json)
    (h : (match lookupField nfs kv.1 with
          | some nv => if kv.2 ≠ nv then some (kv.1, some nv) else none
          | none => some (kv.1, none)) = some a) : a.1 = kv.1 := by
  cases hl : lookupField nfs kv.1 with
  | some nv =>
    rw [hl] at h
    dsimp only at h
    by_cases hne : kv.2 ≠ nv
    · rw [if_pos hne] at h
      cases h
      rfl
    · rw [if_neg hne] at h
      cases h
  | none =>
    rw [hl] at h
    dsimp only at h
    cases h
    rfl

theorem keyActs_first_new (ofs : List (String × Json)) (kv : String × Json)
    (a : String × Option Json)
    (h : (match lookupField ofs kv.1 with
          | some _ => none
          | none => some (kv.1, some kv.2)) = some a) :
    a.1 = kv.1 ∧ lookupField ofs kv.1 = none := by
  cases hl : lookupField ofs kv.1 with
  | some ov => rw [hl] at h; dsimp only at h; cases h
  | none =>
    rw [hl] at h
    dsimp only at h
    cases h
    exact ⟨rfl, rfl⟩

theorem keyActs_keys_nodup (ofs nfs : List (String × Json))
    (ho1 : (ofs.map Prod.fst).Nodup) (hn1 : (nfs.map Prod.fst).Nodup) :
    ((keyActs ofs nfs).map Prod.fst).Nodup := by
  unfold keyActs
  rw [List.map_append]
  refine List.Nodup.append ?_ ?_ ?_
  · refine (filterMap_keys_sublist Prod.fst _ ofs.reverse
      (fun kv a h => keyActs_first_old nfs kv a h)).nodup ?_
    rw [List.map_reverse]
    exact List.nodup_reverse.mpr ho1
  · exact (filterMap_keys_sublist Prod.fst _ nfs
      (fun kv a h => (keyActs_first_new ofs kv a h).1)).nodup hn1
  · intro x hx1 hx2
    obtain ⟨a2, ha2, hax2⟩ := List.mem_map.mp hx2
    obtain ⟨kv2, hkv2, hg2⟩ := List.mem_filterMap.mp ha2
    obtain ⟨hfst2, hnone⟩ := keyActs_first_new ofs kv2 a2 hg2
    have hxo : x ∉ ofs.map Prod.fst := by
      rw [← hax2, hfst2]
      exact (lookupField_eq_none_iff ofs kv2.1).mp hnone
    have hsub := (filterMap_keys_sublist Prod.fst _ ofs.reverse
      (fun kv a h => keyActs_first_old nfs kv a h)).subset hx1
    apply hxo
    rw [List.map_reverse] at hsub
    exact List.mem_reverse.mp hsub

/-- What any key action says about the two objects: it either rewrites a
tracked key (gone or changed in the new object) or adds an untracked one. -/
theorem keyActs_key_facts (ofs nfs : List (String × Json))
    (ho1 : (ofs.map Prod.fst).Nodup) (hn1 : (nfs.map Prod.fst).Nodup)
    (a : String × Option Json) (ha : a ∈ keyActs ofs nfs) :
    (∃ ov, lookupField ofs a.1 = some ov ∧
        ((lookupField nfs a.1 = none ∧ a.2 = none) ∨
          (∃ nv, lookupField nfs a.1 = some nv ∧ ov ≠ nv ∧ a.2 = some nv)))
    ∨ (lookupField ofs a.1 = none ∧
        ∃ nv, lookupField nfs a.1 = some nv ∧ a.2 = some nv) := by
  unfold keyActs at ha
  rcases List.mem_append.mp ha with h1 | h1
  · obtain ⟨kv, hkv, hf⟩ := List.mem_filterMap.mp h1
    have hkv2 : kv ∈ ofs := List.mem_reverse.mp hkv
    have hlo : lookupField ofs kv.1 = some kv.2 :=
      mem_lookupField ofs kv.1 kv.2 ho1 hkv2
    left
    cases hln : lookupField nfs kv.1 with
    | some nv =>
      rw [hln] at hf
      dsimp only at hf
      by_cases hne : kv.2 ≠ nv
      · rw [if_pos hne] at hf
        cases hf
        exact ⟨kv.2, hlo, Or.inr ⟨nv, hln, hne, rfl⟩⟩
      · rw [if_neg hne] at hf
        cases hf
    | none =>
      rw [hln] at hf
      dsimp only at hf
      cases hf
      exact ⟨kv.2, hlo, Or.inl ⟨hln, rfl⟩⟩
  · obtain ⟨kv, hkv, hg⟩ := List.mem_filterMap.mp h1
    obtain ⟨_, hnone⟩ := keyActs_first_new ofs kv a hg
    have hlv : lookupField nfs kv.1 = some kv.2 :=
      mem_lookupField nfs kv.1 kv.2 hn1 hkv
    right
    rw [hnone] at hg
    dsimp only at hg
    cases hg
    exact ⟨hnone, kv.2, hlv, rfl⟩

/-- The final value of every key after the flat diff's actions is the new
object's value for it. -/
theorem keyActs_lookup (ofs nfs : List (String × Json))
    (ho1 : (ofs.map Prod.fst).Nodup) (hn1 : (nfs.map Prod.fst).Nodup)
    (ho2 : ∀ kv ∈ ofs, goodKey kv.1 = true)
    (hn2 : ∀ kv ∈ nfs, goodKey kv.1 = true)
    (q : String) :
    lookupField ((keyActs ofs nfs).foldl applyAction ofs) q =
      lookupField nfs q := by
  have hnd := keyActs_keys_nodup ofs nfs ho1 hn1
  have hframe : (∀ a ∈ keyActs ofs nfs, a.1 ≠ q) →
      lookupField ((keyActs ofs nfs).foldl applyAction ofs) q = lookupField ofs q :=
    foldl_applyAction_frame (keyActs ofs nfs) ofs q
  have heffect : ∀ act, q ≠ "__proto__" → (q, act) ∈ keyActs ofs nfs →
      lookupField ((keyActs ofs nfs).foldl applyAction ofs) q = act :=
    fun act hproto hmem =>
      foldl_applyAction_effect (keyActs ofs nfs) ofs q act hnd ho1 hproto hmem
  cases hqo : lookupField ofs q with
  | some ov =>
    cases hqn : lookupField nfs q with
    | some nv =>
      by_cases hne : ov = nv
      · rw [hframe ?_, hqo, hne]
        intro a ha heq
        rcases keyActs_key_facts ofs nfs ho1 hn1 a ha with
          ⟨ov2, hov2, h2⟩ | ⟨hnone, _⟩
        · rw [heq, hqo] at hov2
          cases hov2
          rcases h2 with ⟨hn0, _⟩ | ⟨nv2, hnv2, hne2, _⟩
          · rw [heq, hqn] at hn0
            cases hn0
          · rw [heq, hqn] at hnv2
            cases hnv2
            exact hne2 hne
        · rw [heq, hqo] at hnone
          cases hnone
      · rw [heffect (some nv)
          (goodKey_ne_proto q (ho2 (q, ov) (lookupField_mem ofs q ov hqo))) ?_]
        unfold keyActs
        apply List.mem_append_left
        apply List.mem_filterMap.mpr
        refine ⟨(q, ov), List.mem_reverse.mpr (lookupField_mem ofs q ov hqo), ?_⟩
        rw [hqn]
        dsimp only
        rw [if_pos hne]
    | none =>
      rw [heffect none
        (goodKey_ne_proto q (ho2 (q, ov) (lookupField_mem ofs q ov hqo))) ?_]
      unfold keyActs
      apply List.mem_append_left
      apply List.mem_filterMap.mpr
      refine ⟨(q, ov), List.mem_reverse.mpr (lookupField_mem ofs q ov hqo), ?_⟩
      rw [hqn]
  | none =>
    cases hqn : lookupField nfs q with
    | some nv =>
      rw [heffect (some nv)
        (goodKey_ne_proto q (hn2 (q, nv) (lookupField_mem nfs q nv hqn))) ?_]
      unfold keyActs
      apply List.mem_append_right
      apply List.mem_filterMap.mpr
      refine ⟨(q, nv), lookupField_mem nfs q nv hqn, ?_⟩
      rw [hqo]
    | none =>
      rw [hframe ?_, hqo]
      intro a ha heq
      rcases keyActs_key_facts ofs nfs ho1 hn1 a ha with
        ⟨ov2, hov2, _⟩ | ⟨_, nv2, hnv2, _⟩
      · rw [heq, hqo] at hov2
        cases hov2
      · rw [heq, hqn] at hnv2
        cases hnv2

/-- The patch `generateJsonPatch` emits for two flat objects performs, in
order, exactly the key actions of `keyActs`. -/
theorem generateJsonPatch_flat_matches (ofs nfs : List (String × Json))
    (ho1 : (ofs.map Prod.fst).Nodup) (hn1 : (nfs.map Prod.fst).Nodup)
    (ho2 : ∀ kv ∈ ofs, goodKey kv.1 = true ∧ kv.2.isContainer = false)
    (hn2 : ∀ kv ∈ nfs, goodKey kv.1 = true) :
    List.Forall₂ opMatchesAction (generateJsonPatch (.obj ofs) (.obj nfs))
      (keyActs ofs nfs) := by
  have hrel1 : ∀ kv ∈ ofs.reverse, optionRel opMatchesAction
      ((fun kv =>
        match lookupField nfs kv.1 with
        | some nv =>
          if kv.2 ≠ nv then
            some { op := PatchOp.replace,
                   path := "" ++ "/" ++ escapeComponent kv.1, value := some nv }
          else none
        | none => some { op := PatchOp.remove,
                         path := "" ++ "/" ++ escapeComponent kv.1 }) kv)
      ((fun kv =>
        match lookupField nfs kv.1 with
        | some nv => if kv.2 ≠ nv then some (kv.1, some nv) else none
        | none => some (kv.1, none)) kv) := by
    intro kv hkv
    have hgood := (ho2 kv (List.mem_reverse.mp hkv)).1
    cases hl : lookupField nfs kv.1 with
    | some nv =>
      dsimp only
      rw [hl]
      dsimp only
      by_cases hne : kv.2 ≠ nv
      · rw [if_pos hne, if_pos hne]
        exact ⟨goodKey_ne_empty kv.1 hgood, splitSlash_key kv.1 hgood,
          Or.inr rfl, rfl⟩
      · rw [if_neg hne, if_neg hne]
        trivial
    | none =>
      dsimp only
      rw [hl]
      exact ⟨goodKey_ne_empty kv.1 hgood, splitSlash_key kv.1 hgood, rfl⟩
  have hrel2 : ∀ kv ∈ nfs, optionRel opMatchesAction
      ((fun kv =>
        match lookupField ofs kv.1 with
        | some _ => none
        | none => some { op := PatchOp.add,
                         path := "" ++ "/" ++ escapeComponent kv.1,
                         value := some kv.2 }) kv)
      ((fun kv =>
        match lookupField ofs kv.1 with
        | some _ => none
        | none => some (kv.1, some kv.2)) kv) := by
    intro kv hkv
    have hgood := hn2 kv hkv
    cases hl : lookupField ofs kv.1 with
    | some ov =>
      dsimp only
      rw [hl]
      trivial
    | none =>
      dsimp only
      rw [hl]
      exact ⟨goodKey_ne_empty kv.1 hgood, splitSlash_key kv.1 hgood,
        Or.inl rfl, rfl⟩
  have hmain : List.Forall₂ opMatchesAction
      (generateOps (Json.size (.obj ofs)) (.obj ofs) (.obj nfs) "")
      (keyActs ofs nfs) := by
    obtain ⟨n, hn⟩ : ∃ n, Json.size (.obj ofs) = n + 1 :=
      ⟨Json.sizeFields ofs, Nat.add_comm 1 (Json.sizeFields ofs)⟩
    rw [hn]
    simp only [generateOps, memberPairs]
    rw [genOldKeys_flat (generateOps n) ofs nfs ofs.reverse
      (fun kv hkv => (ho2 kv (List.mem_reverse.mp hkv)).2)]
    rw [genAddKeys_flat ofs nfs ""]
    dsimp only
    unfold keyActs
    by_cases hskip :
        (!(ofs.reverse.any (fun kv => (lookupField nfs kv.1).isNone))) = true ∧
          nfs.length = ofs.length
    · rw [if_pos hskip]
      have hcov := nfs_keys_covered ofs nfs ho1 hn1 (by simpa using hskip.1)
        hskip.2
      have hadds : nfs.filterMap (fun kv =>
          match lookupField ofs kv.1 with
          | some _ => none
          | none => some (kv.1, some kv.2)) = ([] : List (String × Option Json)) := by
        rw [List.filterMap_eq_nil_iff]
        intro kv hkv
        have hks := hcov kv hkv
        cases hl : lookupField ofs kv.1 with
        | some _ => rfl
        | none => rw [hl] at hks; simp at hks
      rw [hadds, List.append_nil, List.append_nil]
      exact forall₂_filterMap opMatchesAction _ _ ofs.reverse hrel1
    · rw [if_neg hskip]
      exact List.rel_append
        (forall₂_filterMap opMatchesAction _ _ ofs.reverse hrel1)
        (forall₂_filterMap opMatchesAction _ _ nfs hrel2)
  unfold generateJsonPatch
  rw [List.forall₂_map_left_iff]
  refine List.Forall₂.imp ?_ hmain
  intro p a hpa
  obtain ⟨h1, h2, h3⟩ := hpa
  by_cases hc : p.op = PatchOp.replace ∧ (Json.obj ofs).isTruthy = true
  · rw [if_pos hc]
    exact ⟨h1, h2, h3⟩
  · rw [if_neg hc]
    exact ⟨h1, h2, h3⟩

/-- C1 as stated fails on the code: take `old = {"": 1}` and
`new = {"": 2}`.  The diff addresses the empty-string key as the pointer
`"/"` (RFC 6901), but `applyPatches` skips any operation whose final path
segment is falsy, so the patch leaves `old` unchanged and the round trip
does not reach `new`. -/
theorem patch_roundtrip_fails_on_empty_key :
    generateJsonPatch (.obj [("", .num 1)]) (.obj [("", .num 2)]) =
      [{ op := .replace, path := "/", value := some (.num 2),
         oldValue := some (.obj [("", .num 1)]) }] ∧
      applyPatches (.obj [("", .num 1)])
        (generateJsonPatch (.obj [("", .num 1)]) (.obj [("", .num 2)])) =
        .obj [("", .num 1)] := by
  exact ⟨by decide, by decide⟩

/-- The model reflects the inherited-accessor semantics that also breaks
the round trip outside the flat restriction: diffing the empty object
against a parsed object whose only own key is `"__proto__"` emits an add at
`/__proto__`, whose assignment on the cloned empty object creates no own
property, so the patch leaves the old object unchanged. -/
theorem proto_add_is_noop :
    generateJsonPatch (.obj []) (.obj [("__proto__", .str "x")]) =
        [{ op := .add, path := "/__proto__", value := some (.str "x") }] ∧
      applyPatches (.obj [])
        (generateJsonPatch (.obj []) (.obj [("__proto__", .str "x")])) =
        .obj [] := by
  exact ⟨by decide, by decide⟩

/-- C1 amended: for flat JSON objects — string keys that are non-empty,
not the inherited accessor name `"__proto__"`, and free of the
pointer-escaped characters `/` and `~`, no duplicate keys, non-container
values — applying the patch produced by `generateJsonPatch` to the old
object yields an object that is deep-equal to the new one: it maps every
key to exactly the new object's value.  The unrestricted claim fails (see
the empty-key counterexample), and so does admitting `"__proto__"`, whose
fresh assignment creates no own property (see `proto_add_is_noop`). -/
theorem patch_roundtrip_flat (ofs nfs : List (String × Json))
    (ho1 : (ofs.map Prod.fst).Nodup) (hn1 : (nfs.map Prod.fst).Nodup)
    (ho2 : ∀ kv ∈ ofs, goodKey kv.1 = true ∧ kv.2.isContainer = false)
    (hn2 : ∀ kv ∈ nfs, goodKey kv.1 = true ∧ kv.2.isContainer = false) :
    ∃ rfs : List (String × Json),
      applyPatches (.obj ofs) (generateJsonPatch (.obj ofs) (.obj nfs)) =
          .obj rfs ∧
        ∀ q : String, lookupField rfs q = lookupField nfs q := by
  refine ⟨(keyActs ofs nfs).foldl applyAction ofs, ?_,
    fun q => keyActs_lookup ofs nfs ho1 hn1
      (fun kv hkv => (ho2 kv hkv).1) (fun kv hkv => (hn2 kv hkv).1) q⟩
  have hforall := generateJsonPatch_flat_matches ofs nfs ho1 hn1 ho2
    (fun kv hkv => (hn2 kv hkv).1)
  exact foldl_applyOne_matches _ _ hforall ofs

theorem patch_roundtrip_flat_witness :
    (([("a", Json.num 1), ("b", Json.str "x")].map Prod.fst).Nodup ∧
        ([("b", Json.str "y"), ("c", Json.bool true)].map Prod.fst).Nodup ∧
        (∀ kv ∈ [("a", Json.num 1), ("b", Json.str "x")],
          goodKey kv.1 = true ∧ kv.2.isContainer = false) ∧
        (∀ kv ∈ [("b", Json.str "y"), ("c", Json.bool true)],
          goodKey kv.1 = true ∧ kv.2.isContainer = false)) ∧
      ∃ rfs : List (String × Json),
        applyPatches (.obj [("a", .num 1), ("b", .str "x")])
            (generateJsonPatch (.obj [("a", .num 1), ("b", .str "x")])
              (.obj [("b", .str "y"), ("c", .bool true)])) = .obj rfs ∧
          ∀ q : String,
            lookupField rfs q =
              lookupField [("b", Json.str "y"), ("c", Json.bool true)] q :=
  ⟨⟨by decide, by decide, by decide, by decide⟩,
   patch_roundtrip_flat [("a", .num 1), ("b", .str "x")]
     [("b", .str "y"), ("c", .bool true)]
     (by decide) (by decide) (by decide) (by decide)⟩

end Configrep
